import Mathlib

/-!
Shallow embedding of the Chad Session Builder core
(`app/chad_session_builder.js`): quarter-hour time alignment, mode
alternation, device-tag normalization, windowed segmentation by resolved
attribution, and the idempotency-keyed upsert writer.

Conventions of the embedding:
* Timestamps are `Nat` milliseconds on the local clock, with hours starting
  at multiples of 3600000 (as for the JavaScript `Date` minute/second
  accessors used by the source).
* JavaScript `null`/`undefined` string fields are `Option String`; the
  `x || y` fallback on strings treats `""` like `null` (falsy), as in JS.
* The database rows are records; the `dev_session_logs` table is a list of
  rows searched by `idempotency_key`; `Date.toISOString` is modelled by an
  injective rendering of the millisecond timestamp.
-/

namespace Chad

/-! ### Time aligner (floorToQuarterHour, quarterIndex, msUntilNextQuarter) -/

/-- `d.getMinutes()` for a local-clock millisecond timestamp. -/
def getMinutes (t : Nat) : Nat := t % 3600000 / 60000

/-- `d.setMinutes(m, 0, 0)`: set the minute within the current hour and zero
seconds and milliseconds.  Values `m ≥ 60` roll over into later hours,
as for JavaScript dates. -/
def setMinutesZeroSec (t : Nat) (m : Nat) : Nat := t - t % 3600000 + m * 60000

/-- `floorToQuarterHour` from the source: floor the minute to a multiple of
15 and zero seconds/milliseconds. -/
def floorToQuarterHour (t : Nat) : Nat :=
  setMinutesZeroSec t (getMinutes t / 15 * 15)

/-- `quarterIndex` from the source: which quarter of the hour (0-3). -/
def quarterIndex (t : Nat) : Nat := getMinutes t / 15

/-- Mode selection in `processTick`: `(qIdx % 2 === 0) ? 'internal' : 'external'`. -/
def tickMode (tickTime : Nat) : String :=
  if quarterIndex tickTime % 2 == 0 then "internal" else "external"

/-- `msUntilNextQuarter` from the source: floor now to the quarter hour, add
15 minutes, and subtract now. -/
def msUntilNextQuarter (now : Nat) : Int :=
  let next := setMinutesZeroSec (floorToQuarterHour now)
    (getMinutes (floorToQuarterHour now) + 15)
  (next : Int) - (now : Int)

/-! ### Device-tag normalization (normalizePcTag) -/

/-- The character class `[a-z0-9-]` of the replacement regex. -/
def isTagChar (c : Char) : Bool :=
  ('a' ≤ c && c ≤ 'z') || ('0' ≤ c && c ≤ '9') || c == '-'

/-- `normalizePcTag` from the source: falsy input (missing or empty tag)
yields the fixed fallback tag; otherwise lower-case each character and
replace every character outside `[a-z0-9-]` with `'-'`. -/
def normalizePcTag : Option String → String
  | none => "studio-terminals"
  | some s =>
      if s = "" then "studio-terminals"
      else String.mk ((s.data.map Char.toLower).map
        (fun c => if isTagChar c then c else '-'))

/-! ### Data model -/

/-- A row of `dev_transcripts_raw` as fetched by the window query (the
columns the core logic reads). -/
structure RawEvent where
  id : Nat
  pc_tag : Option String
  source_type : String
  original_timestamp : Nat
  user_id : Option String
  raw_mode : Option String
  context_version : Option Int
  deriving DecidableEq

/-- A row of `dev_user_context` as returned by `resolveContext`. -/
structure Ctx where
  project_id : Option String
  project_slug : Option String
  project_name : Option String
  user_id : Option String
  mode : Option String
  dev_team : Option String
  deriving DecidableEq

/-- JavaScript `x || d` where `x` is a nullable string and `d` a string:
`null`, `undefined` and `""` are falsy. -/
def jsOrS : Option String → String → String
  | some s, d => if s = "" then d else s
  | none, d => d

/-- JavaScript `x || y` where both sides are nullable strings. -/
def jsOrO : Option String → Option String → Option String
  | some s, y => if s = "" then y else some s
  | none, y => y

/-- The in-progress segment record built by the `processTick` loop. -/
structure Segment where
  projectId : String
  projectSlug : String
  userId : Option String
  pcTag : Option String
  mode : String
  lane : String
  segmentStart : Nat
  segmentEnd : Option Nat
  events : List RawEvent
  contextVersions : List Int
  deriving DecidableEq

/-! ### Segmenter (the grouping loop of processTick, lines 122-162) -/

/-- The resolver is an opaque point lookup: normalized tag and timestamp to
an optional context row (`resolveContext` in the source). -/
def Resolver := String → Nat → Option Ctx

/-- The per-event resolver call of the loop:
`resolveContext(client, event.original_timestamp, normalizePcTag(event.pc_tag))`. -/
def eventCtx (resolve : Resolver) (e : RawEvent) : Option Ctx :=
  resolve (normalizePcTag e.pc_tag) e.original_timestamp

/-- `ctx?.project_id || 'UNASSIGNED'`. -/
def eventKey (resolve : Resolver) (e : RawEvent) : String :=
  jsOrS ((eventCtx resolve e).bind (·.project_id)) "UNASSIGNED"

/-- `ctx?.project_slug || 'unassigned'`. -/
def eventSlug (resolve : Resolver) (e : RawEvent) : String :=
  jsOrS ((eventCtx resolve e).bind (·.project_slug)) "unassigned"

/-- The fresh segment object created when the attribution key changes. -/
def newSegment (mode : String) (resolve : Resolver) (e : RawEvent) : Segment :=
  { projectId := eventKey resolve e
    projectSlug := eventSlug resolve e
    userId := jsOrO ((eventCtx resolve e).bind (·.user_id)) e.user_id
    pcTag := e.pc_tag
    mode := mode
    lane := jsOrS (jsOrO ((eventCtx resolve e).bind (·.mode)) e.raw_mode) mode
    segmentStart := e.original_timestamp
    segmentEnd := none
    events := []
    contextVersions := [] }

/-- `currentSegment.events.push(event)` plus the conditional
`contextVersions.push(event.context_version)`. -/
def pushEvent (s : Segment) (e : RawEvent) : Segment :=
  { s with
    events := s.events ++ [e]
    contextVersions :=
      match e.context_version with
      | some v => s.contextVersions ++ [v]
      | none => s.contextVersions }

/-- The body of the grouping loop with a non-null current segment, plus the
final flush: on each event, if the resolved key differs, close the current
segment at that event's timestamp and start a new one; after the loop, close
the current segment at its own last event's timestamp (the source guards the
final flush on `events.length > 0`). -/
def segLoop (resolve : Resolver) (mode : String) :
    List RawEvent → Segment → List Segment
  | [], cur =>
      if cur.events.isEmpty then []
      else [{ cur with
              segmentEnd := cur.events.getLast?.map (·.original_timestamp) }]
  | e :: rest, cur =>
      if cur.projectId = eventKey resolve e then
        segLoop resolve mode rest (pushEvent cur e)
      else
        { cur with segmentEnd := some e.original_timestamp } ::
          segLoop resolve mode rest (pushEvent (newSegment mode resolve e) e)

/-- The whole grouping phase: `currentSegment` starts out null, so the first
event always opens a segment. -/
def buildSegments (resolve : Resolver) (mode : String) :
    List RawEvent → List Segment
  | [] => []
  | e :: rest => segLoop resolve mode rest (pushEvent (newSegment mode resolve e) e)

/-! ### Aggregate writer (the insert loop of processTick, lines 166-226) -/

/-- `Math.min(...list)` guarded by `list.length > 0 ? ... : null`. -/
def minList : List Int → Option Int
  | [] => none
  | x :: xs => some (xs.foldl min x)

/-- `Math.max(...list)` guarded by `list.length > 0 ? ... : null`. -/
def maxList : List Int → Option Int
  | [] => none
  | x :: xs => some (xs.foldl max x)

/-- `toISOString()` modelled as an injective rendering of the millisecond
timestamp. -/
def isoOf (t : Nat) : String := toString t

/-- The idempotency key
`chad:${mode}:${seg.projectId}:${segmentStart ISO}:${segmentEnd ISO}`.
The writer only runs on flushed segments, whose `segmentEnd` is set. -/
def segKey (mode : String) (seg : Segment) : String :=
  "chad:" ++ mode ++ ":" ++ seg.projectId ++ ":" ++ isoOf seg.segmentStart
    ++ ":" ++ isoOf (seg.segmentEnd.getD 0)

/-- A row of `dev_session_logs` (the columns this program writes). -/
structure AggRow where
  idempotency_key : String
  pc_tag : Option String
  pc_tag_norm : String
  project_id : String
  project_slug : String
  user_id : Option String
  mode : String
  lane : String
  window_start : Nat
  window_end : Nat
  segment_start : Nat
  segment_end : Nat
  first_ts : Nat
  last_ts : Nat
  raw_refs : List Nat
  raw_count : Nat
  message_count : Nat
  context_version_min : Option Int
  context_version_max : Option Int
  status : String
  deriving DecidableEq

/-- The VALUES tuple of the INSERT: the row a segment produces when no row
with its idempotency key exists yet. -/
def rowOfSegment (windowStart windowEnd : Nat) (mode : String) (seg : Segment) :
    AggRow :=
  { idempotency_key := segKey mode seg
    pc_tag := seg.pcTag
    pc_tag_norm := normalizePcTag seg.pcTag
    project_id := seg.projectId
    project_slug := seg.projectSlug
    user_id := seg.userId
    mode := mode
    lane := seg.lane
    window_start := windowStart
    window_end := windowEnd
    segment_start := seg.segmentStart
    segment_end := seg.segmentEnd.getD 0
    first_ts := seg.segmentStart
    last_ts := seg.segmentEnd.getD 0
    raw_refs := seg.events.map (·.id)
    raw_count := seg.events.length
    message_count := seg.events.length
    context_version_min := minList seg.contextVersions
    context_version_max := maxList seg.contextVersions
    status := "active" }

/-- PostgreSQL `GREATEST` on two nullable integers: NULL arguments are
ignored; the result is NULL only when both are. -/
def pgGreatest : Option Int → Option Int → Option Int
  | none, b => b
  | some x, none => some x
  | some x, some y => some (max x y)

/-- The `ON CONFLICT ... DO UPDATE` clause: `old` is the stored row
(`dev_session_logs.*`), `new` the excluded insert row.  Every column not
listed in the SET clause keeps its stored value — in particular
`context_version_min` and `status` are not updated. -/
def mergeRow (old new : AggRow) : AggRow :=
  { old with
    last_ts := max old.last_ts new.last_ts
    segment_end := max old.segment_end new.segment_end
    raw_refs := old.raw_refs ++ new.raw_refs
    raw_count := old.raw_count + new.raw_count
    message_count := old.message_count + new.message_count
    context_version_max :=
      pgGreatest old.context_version_max new.context_version_max }

/-- Lookup in `dev_session_logs` by idempotency key. -/
def findRow (store : List AggRow) (key : String) : Option AggRow :=
  store.find? (fun r => r.idempotency_key == key)

/-- One upsert statement: insert the row built from the segment, or merge it
into the existing row with the same idempotency key. -/
def upsertSegment (windowStart windowEnd : Nat) (mode : String)
    (store : List AggRow) (seg : Segment) : List AggRow :=
  let new := rowOfSegment windowStart windowEnd mode seg
  match findRow store new.idempotency_key with
  | none => store ++ [new]
  | some _ =>
      store.map fun r =>
        if r.idempotency_key == new.idempotency_key then mergeRow r new else r

/-- The write loop over the cycle's segments. -/
def writeSegments (windowStart windowEnd : Nat) (mode : String)
    (store : List AggRow) (segs : List Segment) : List AggRow :=
  segs.foldl (upsertSegment windowStart windowEnd mode) store

/-! ### One tick (processTick) -/

/-- The stores `processTick` can observe: the raw transcript source, the
session-log aggregate store, and the `dev_ai_sessions` table the program
documents it never writes. -/
structure DbState where
  raw : List RawEvent
  dev_session_logs : List AggRow
  dev_ai_sessions : List AggRow
  deriving DecidableEq

/-- The window query: events with `original_timestamp` in
`[windowStart, windowEnd)` and `source_type = mode`, in stored (ascending)
order. -/
def fetchEvents (raw : List RawEvent) (windowStart windowEnd : Nat)
    (mode : String) : List RawEvent :=
  raw.filter fun e =>
    decide (windowStart ≤ e.original_timestamp)
      && decide (e.original_timestamp < windowEnd)
      && e.source_type == mode

/-- One tick: align the clock, pick the mode, fetch the 30-minute window,
segment, and write.  An empty window commits without writes. -/
def processTick (resolve : Resolver) (st : DbState) (now : Nat) : DbState :=
  let tickTime := floorToQuarterHour now
  let mode := tickMode tickTime
  let windowEnd := tickTime
  let windowStart := tickTime - 30 * 60 * 1000
  let rawEvents := fetchEvents st.raw windowStart windowEnd mode
  if rawEvents.isEmpty then st
  else
    { st with
      dev_session_logs :=
        writeSegments windowStart windowEnd mode st.dev_session_logs
          (buildSegments resolve mode rawEvents) }

/-! ### Concrete instances used by the scenario checks -/

/-- The spec's boundary scenario: a resolver whose active context is project
P1 before 10:20 local time and P2 from 10:20 on. -/
def scenarioResolve : Resolver := fun _ ts =>
  some { project_id := some (if ts < 37200000 then "P1" else "P2")
         project_slug := none
         project_name := none
         user_id := none
         mode := none
         dev_team := none }

/-- Scenario event at 10:05 (36300000 ms). -/
def evA : RawEvent :=
  { id := 101, pc_tag := some "PC1", source_type := "internal"
    original_timestamp := 36300000, user_id := none, raw_mode := none
    context_version := none }

/-- Scenario event at 10:10 (36600000 ms). -/
def evB : RawEvent :=
  { id := 102, pc_tag := some "PC1", source_type := "internal"
    original_timestamp := 36600000, user_id := none, raw_mode := none
    context_version := none }

/-- Scenario event at 10:20 (37200000 ms). -/
def evC : RawEvent :=
  { id := 103, pc_tag := some "PC1", source_type := "internal"
    original_timestamp := 37200000, user_id := none, raw_mode := none
    context_version := none }

/-- The expected first scenario segment: project P1, `[10:05, 10:20)`,
two events. -/
def segP1 : Segment :=
  { projectId := "P1", projectSlug := "unassigned", userId := none
    pcTag := some "PC1", mode := "internal", lane := "internal"
    segmentStart := 36300000, segmentEnd := some 37200000
    events := [evA, evB], contextVersions := [] }

/-- The expected second scenario segment: project P2, zero-width at 10:20,
one event. -/
def segP2 : Segment :=
  { projectId := "P2", projectSlug := "unassigned", userId := none
    pcTag := some "PC1", mode := "internal", lane := "internal"
    segmentStart := 37200000, segmentEnd := some 37200000
    events := [evC], contextVersions := [] }

/-- A resolver that always finds project P1 (for the idempotence check). -/
def cexResolve : Resolver := fun _ _ =>
  some { project_id := some "P1", project_slug := some "p1"
         project_name := none, user_id := none, mode := none, dev_team := none }

/-- A one-event input list for the idempotence check. -/
def cexEvents : List RawEvent :=
  [{ id := 1, pc_tag := some "pc1", source_type := "internal"
     original_timestamp := 1000, user_id := none, raw_mode := none
     context_version := some 3 }]

/-- A resolver whose lookup is always absent (for the sentinel checks). -/
def noneResolve : Resolver := fun _ _ => none

/-- The one segment the segmenter builds from `cexEvents` under
`cexResolve`. -/
def cexSegBuilt : Segment :=
  { projectId := "P1", projectSlug := "p1", userId := none
    pcTag := some "pc1", mode := "internal", lane := "internal"
    segmentStart := 1000, segmentEnd := some 1000
    events := cexEvents, contextVersions := [3] }

/-- A flushed segment with context version 5, as stored by a first cycle. -/
def cexSegA : Segment :=
  { projectId := "P1", projectSlug := "p1", userId := none
    pcTag := some "pc1", mode := "internal", lane := "internal"
    segmentStart := 1000, segmentEnd := some 1000
    events := [{ id := 1, pc_tag := some "pc1", source_type := "internal"
                 original_timestamp := 1000, user_id := none, raw_mode := none
                 context_version := some 5 }]
    contextVersions := [5] }

/-- A conflicting segment with the same identity but context version 3. -/
def cexSegB : Segment :=
  { projectId := "P1", projectSlug := "p1", userId := none
    pcTag := some "pc1", mode := "internal", lane := "internal"
    segmentStart := 1000, segmentEnd := some 1000
    events := [{ id := 2, pc_tag := some "pc1", source_type := "internal"
                 original_timestamp := 1000, user_id := none, raw_mode := none
                 context_version := some 3 }]
    contextVersions := [3] }

/-! ## Helper lemmas about the time aligner -/

/-- The quarter index of any instant is its quarter-hour number modulo 4. -/
theorem quarterIndex_div (s : Nat) : quarterIndex s = s / 900000 % 4 := by
  unfold quarterIndex getMinutes; omega

/-- The selected mode depends only on the parity of the quarter-hour number. -/
theorem tickMode_parity (s : Nat) :
    tickMode s = if s / 900000 % 2 = 0 then "internal" else "external" := by
  unfold tickMode
  rw [quarterIndex_div]
  rcases (by omega : s / 900000 % 2 = 0 ∨ s / 900000 % 2 = 1) with h | h
  · have h4 : s / 900000 % 4 % 2 = 0 := by omega
    simp [h4, h]
  · have h4 : s / 900000 % 4 % 2 = 1 := by omega
    simp [h4, h]

/-! ## Claims about the time aligner -/

/-- Claim C9: for every instant `now`, `msUntilNextQuarter now` is strictly
positive and at most 15 minutes (900000 ms), including when `now` falls
exactly on a quarter-hour boundary. -/
theorem c9_msUntilNextQuarter_bounds (now : Nat) :
    0 < msUntilNextQuarter now ∧ msUntilNextQuarter now ≤ 900000 := by
  simp only [msUntilNextQuarter, floorToQuarterHour, setMinutesZeroSec, getMinutes]
  omega

/-- Claim C5: for every aligned tick time, the quarter index is in 0-3,
indices 0 and 2 select mode `internal` and indices 1 and 3 select
`external`, the mode flips after 15 minutes, and it repeats after 30
minutes — so any 4 consecutive quarter-hours see exactly the 2 values. -/
theorem c5_mode_alternation (t : Nat) (ht : t % 900000 = 0) :
    quarterIndex t < 4 ∧
    (tickMode t = "internal" ↔ (quarterIndex t = 0 ∨ quarterIndex t = 2)) ∧
    (tickMode t = "external" ↔ (quarterIndex t = 1 ∨ quarterIndex t = 3)) ∧
    tickMode (t + 900000) ≠ tickMode t ∧
    tickMode (t + 1800000) = tickMode t ∧
    tickMode (t + 2700000) = tickMode (t + 900000) := by
  rw [tickMode_parity, tickMode_parity, tickMode_parity, tickMode_parity,
    quarterIndex_div]
  rcases (by omega : t / 900000 % 2 = 0 ∨ t / 900000 % 2 = 1) with h | h
  · rw [if_pos h, if_neg (by omega : ¬(t + 900000) / 900000 % 2 = 0),
      if_pos (by omega : (t + 1800000) / 900000 % 2 = 0),
      if_neg (by omega : ¬(t + 2700000) / 900000 % 2 = 0)]
    exact ⟨by omega, ⟨fun _ => by omega, fun _ => rfl⟩,
      ⟨fun hx => absurd hx (by decide), fun hx => absurd hx (by omega)⟩,
      by decide, rfl, rfl⟩
  · rw [if_neg (by omega : ¬t / 900000 % 2 = 0),
      if_pos (by omega : (t + 900000) / 900000 % 2 = 0),
      if_neg (by omega : ¬(t + 1800000) / 900000 % 2 = 0),
      if_pos (by omega : (t + 2700000) / 900000 % 2 = 0)]
    exact ⟨by omega, ⟨fun hx => absurd hx (by decide), fun hx => absurd hx (by omega)⟩,
      ⟨fun _ => by omega, fun _ => rfl⟩, by decide, rfl, rfl⟩

/-! ## Helper lemmas about the segmenter -/

/-- Flattening the output segments' event lists recovers the open segment's
events followed by the remaining input. -/
theorem segLoop_join (resolve : Resolver) (mode : String) :
    ∀ (evts : List RawEvent) (cur : Segment), cur.events ≠ [] →
      ((segLoop resolve mode evts cur).map (·.events)).flatten = cur.events ++ evts := by
  intro evts
  induction evts with
  | nil =>
      intro cur h
      simp only [segLoop]
      rw [if_neg (by simpa using h)]
      simp
  | cons e rest ih =>
      intro cur h
      simp only [segLoop]
      by_cases hk : cur.projectId = eventKey resolve e
      · rw [if_pos hk, ih (pushEvent cur e) (by simp [pushEvent])]
        simp [pushEvent]
      · rw [if_neg hk]
        simp only [List.map_cons, List.flatten_cons]
        rw [ih (pushEvent (newSegment mode resolve e) e) (by simp [pushEvent])]
        simp [pushEvent, newSegment]

/-- The loop's output is nonempty and its head keeps the open segment's
attribution key and start. -/
theorem segLoop_head (resolve : Resolver) (mode : String) :
    ∀ (evts : List RawEvent) (cur : Segment), cur.events ≠ [] →
      ∃ s t, segLoop resolve mode evts cur = s :: t ∧
        s.projectId = cur.projectId ∧ s.segmentStart = cur.segmentStart := by
  intro evts
  induction evts with
  | nil =>
      intro cur h
      refine ⟨{ cur with
        segmentEnd := cur.events.getLast?.map (·.original_timestamp) }, [], ?_, rfl, rfl⟩
      simp only [segLoop]
      rw [if_neg (by simpa using h)]
  | cons e rest ih =>
      intro cur h
      simp only [segLoop]
      by_cases hk : cur.projectId = eventKey resolve e
      · rw [if_pos hk]
        exact ih (pushEvent cur e) (by simp [pushEvent])
      · rw [if_neg hk]
        exact ⟨_, _, rfl, rfl, rfl⟩

/-- Adjacent output segments always carry different attribution keys. -/
theorem segLoop_chain_keys (resolve : Resolver) (mode : String) :
    ∀ (evts : List RawEvent) (cur : Segment), cur.events ≠ [] →
      List.Chain' (fun a b : Segment => a.projectId ≠ b.projectId)
        (segLoop resolve mode evts cur) := by
  intro evts
  induction evts with
  | nil =>
      intro cur h
      simp only [segLoop]
      rw [if_neg (by simpa using h)]
      exact List.chain'_singleton _
  | cons e rest ih =>
      intro cur h
      simp only [segLoop]
      by_cases hk : cur.projectId = eventKey resolve e
      · rw [if_pos hk]
        exact ih (pushEvent cur e) (by simp [pushEvent])
      · rw [if_neg hk]
        obtain ⟨s, t, heq, hpid, -⟩ :=
          segLoop_head resolve mode rest (pushEvent (newSegment mode resolve e) e)
            (by simp [pushEvent])
        rw [heq]
        refine List.Chain'.cons ?_ (heq ▸ ih _ (by simp [pushEvent]))
        simpa [hpid, pushEvent, newSegment] using hk

/-- Segment starts never decrease along the output when the input is sorted
and bounded below by the open segment's start. -/
theorem segLoop_chain_starts (resolve : Resolver) (mode : String) :
    ∀ (evts : List RawEvent) (cur : Segment), cur.events ≠ [] →
      (∀ e ∈ evts, cur.segmentStart ≤ e.original_timestamp) →
      evts.Pairwise (fun a b => a.original_timestamp ≤ b.original_timestamp) →
      List.Chain' (fun a b : Segment => a.segmentStart ≤ b.segmentStart)
        (segLoop resolve mode evts cur) := by
  intro evts
  induction evts with
  | nil =>
      intro cur h _ _
      simp only [segLoop]
      rw [if_neg (by simpa using h)]
      exact List.chain'_singleton _
  | cons e rest ih =>
      intro cur h hbd hsort
      simp only [segLoop]
      by_cases hk : cur.projectId = eventKey resolve e
      · rw [if_pos hk]
        refine ih (pushEvent cur e) (by simp [pushEvent]) ?_ hsort.of_cons
        intro e' he'
        simpa [pushEvent] using hbd e' (List.mem_cons_of_mem _ he')
      · rw [if_neg hk]
        obtain ⟨s, t, heq, -, hstart⟩ :=
          segLoop_head resolve mode rest (pushEvent (newSegment mode resolve e) e)
            (by simp [pushEvent])
        rw [heq]
        refine List.Chain'.cons ?_
          (heq ▸ ih _ (by simp [pushEvent]) ?_ hsort.of_cons)
        · have hs : s.segmentStart = e.original_timestamp := by
            simp [hstart, pushEvent, newSegment]
          simpa [hs] using hbd e (List.mem_cons_self e rest)
        · intro e' he'
          have := (List.pairwise_cons.mp hsort).1 e' he'
          simpa [pushEvent, newSegment] using this

/-- Each closed segment ends exactly where the next one starts. -/
theorem segLoop_chain_ends (resolve : Resolver) (mode : String) :
    ∀ (evts : List RawEvent) (cur : Segment), cur.events ≠ [] →
      List.Chain' (fun a b : Segment => a.segmentEnd = some b.segmentStart)
        (segLoop resolve mode evts cur) := by
  intro evts
  induction evts with
  | nil =>
      intro cur h
      simp only [segLoop]
      rw [if_neg (by simpa using h)]
      exact List.chain'_singleton _
  | cons e rest ih =>
      intro cur h
      simp only [segLoop]
      by_cases hk : cur.projectId = eventKey resolve e
      · rw [if_pos hk]
        exact ih (pushEvent cur e) (by simp [pushEvent])
      · rw [if_neg hk]
        obtain ⟨s, t, heq, -, hstart⟩ :=
          segLoop_head resolve mode rest (pushEvent (newSegment mode resolve e) e)
            (by simp [pushEvent])
        rw [heq]
        refine List.Chain'.cons ?_ (heq ▸ ih _ (by simp [pushEvent]))
        simp [hstart, pushEvent, newSegment]

/-- Every output segment starts at its own first event's timestamp, provided
the open segment does. -/
theorem segLoop_start_first (resolve : Resolver) (mode : String) :
    ∀ (evts : List RawEvent) (cur : Segment),
      cur.events.head?.map (·.original_timestamp) = some cur.segmentStart →
      ∀ s ∈ segLoop resolve mode evts cur,
        s.events.head?.map (·.original_timestamp) = some s.segmentStart := by
  intro evts
  induction evts with
  | nil =>
      intro cur hc s hs
      have hne : cur.events ≠ [] := by
        intro hnil
        rw [hnil] at hc
        simp at hc
      simp only [segLoop] at hs
      rw [if_neg (by simpa using hne)] at hs
      simp only [List.mem_singleton] at hs
      subst hs
      simpa using hc
  | cons e rest ih =>
      intro cur hc s hs
      have hne : cur.events ≠ [] := by
        intro hnil
        rw [hnil] at hc
        simp at hc
      simp only [segLoop] at hs
      by_cases hk : cur.projectId = eventKey resolve e
      · rw [if_pos hk] at hs
        refine ih (pushEvent cur e) ?_ s hs
        simpa [pushEvent, List.head?_append_of_ne_nil _ hne] using hc
      · rw [if_neg hk] at hs
        rcases List.mem_cons.mp hs with hs | hs
        · subst hs
          simpa using hc
        · refine ih (pushEvent (newSegment mode resolve e) e) ?_ s hs
          simp [pushEvent, newSegment]

/-- The final output segment closes at its own last event's timestamp, and
that event is the last of the whole input. -/
theorem segLoop_last (resolve : Resolver) (mode : String) :
    ∀ (evts : List RawEvent) (cur : Segment), cur.events ≠ [] →
      ∃ s, (segLoop resolve mode evts cur).getLast? = some s ∧
        s.events.getLast? = (cur.events ++ evts).getLast? ∧
        s.segmentEnd = s.events.getLast?.map (·.original_timestamp) := by
  intro evts
  induction evts with
  | nil =>
      intro cur h
      refine ⟨{ cur with
        segmentEnd := cur.events.getLast?.map (·.original_timestamp) }, ?_, by simp, rfl⟩
      simp only [segLoop]
      rw [if_neg (by simpa using h)]
      simp
  | cons e rest ih =>
      intro cur h
      simp only [segLoop]
      by_cases hk : cur.projectId = eventKey resolve e
      · rw [if_pos hk]
        obtain ⟨s, h1, h2, h3⟩ := ih (pushEvent cur e) (by simp [pushEvent])
        refine ⟨s, h1, ?_, h3⟩
        rw [h2]
        simp [pushEvent]
      · rw [if_neg hk]
        obtain ⟨s0, t0, heq, -, -⟩ :=
          segLoop_head resolve mode rest (pushEvent (newSegment mode resolve e) e)
            (by simp [pushEvent])
        obtain ⟨s, h1, h2, h3⟩ :=
          ih (pushEvent (newSegment mode resolve e) e) (by simp [pushEvent])
        refine ⟨s, ?_, ?_, h3⟩
        · rw [heq] at h1 ⊢
          rw [List.getLast?_cons_cons]
          exact h1
        · rw [h2]
          have hpe : (pushEvent (newSegment mode resolve e) e).events = [e] := by
            simp [pushEvent, newSegment]
          rw [hpe, List.getLast?_append_of_ne_nil _
            (show (e :: rest : List RawEvent) ≠ [] by simp)]
          rfl

/-- When every remaining event resolves to the open segment's key, the loop
coalesces everything into that one segment. -/
theorem segLoop_single_key (resolve : Resolver) (mode : String) :
    ∀ (evts : List RawEvent) (cur : Segment), cur.events ≠ [] →
      (∀ e ∈ evts, eventKey resolve e = cur.projectId) →
      ∃ s, segLoop resolve mode evts cur = [s] ∧ s.projectId = cur.projectId ∧
        s.events = cur.events ++ evts := by
  intro evts
  induction evts with
  | nil =>
      intro cur h _
      refine ⟨{ cur with
        segmentEnd := cur.events.getLast?.map (·.original_timestamp) }, ?_, rfl, by simp⟩
      simp only [segLoop]
      rw [if_neg (by simpa using h)]
  | cons e rest ih =>
      intro cur h hkeys
      simp only [segLoop]
      rw [if_pos (hkeys e (List.mem_cons_self e rest)).symm]
      have hrest : ∀ e' ∈ rest, eventKey resolve e' = (pushEvent cur e).projectId := by
        intro e' he'
        simpa [pushEvent] using hkeys e' (List.mem_cons_of_mem _ he')
      obtain ⟨s, h1, h2, h3⟩ := ih (pushEvent cur e) (by simp [pushEvent]) hrest
      refine ⟨s, h1, h2, ?_⟩
      rw [h3]
      simp [pushEvent]

/-! ## Claims about the segmenter -/

/-- Claim C3: for a non-empty input ordered by timestamp, the output
segments partition the input exactly (flattening the segments' event lists
gives back the input), adjacent segments never share an attribution key,
and segments are in ascending time order. -/
theorem c3_segmenter_partition (resolve : Resolver) (mode : String)
    (evts : List RawEvent) (hne : evts ≠ [])
    (hsorted : evts.Pairwise (fun a b => a.original_timestamp ≤ b.original_timestamp)) :
    ((buildSegments resolve mode evts).map (·.events)).flatten = evts ∧
    List.Chain' (fun a b : Segment => a.projectId ≠ b.projectId)
      (buildSegments resolve mode evts) ∧
    List.Chain' (fun a b : Segment => a.segmentStart ≤ b.segmentStart)
      (buildSegments resolve mode evts) := by
  cases evts with
  | nil => exact absurd rfl hne
  | cons e rest =>
      unfold buildSegments
      refine ⟨?_, ?_, ?_⟩
      · rw [segLoop_join resolve mode rest _ (by simp [pushEvent])]
        simp [pushEvent, newSegment]
      · exact segLoop_chain_keys resolve mode rest _ (by simp [pushEvent])
      · refine segLoop_chain_starts resolve mode rest _ (by simp [pushEvent]) ?_
          hsorted.of_cons
        intro e' he'
        have := (List.pairwise_cons.mp hsorted).1 e' he'
        simpa [pushEvent, newSegment] using this

/-- Witness for C3 on the three scenario events. -/
theorem c3_segmenter_partition_witness :
    ([evA, evB, evC] : List RawEvent) ≠ [] ∧
    ([evA, evB, evC].Pairwise fun a b => a.original_timestamp ≤ b.original_timestamp) ∧
    (((buildSegments scenarioResolve "internal" [evA, evB, evC]).map
        (·.events)).flatten = [evA, evB, evC] ∧
      List.Chain' (fun a b : Segment => a.projectId ≠ b.projectId)
        (buildSegments scenarioResolve "internal" [evA, evB, evC]) ∧
      List.Chain' (fun a b : Segment => a.segmentStart ≤ b.segmentStart)
        (buildSegments scenarioResolve "internal" [evA, evB, evC])) :=
  ⟨by decide, by decide,
    c3_segmenter_partition scenarioResolve "internal" [evA, evB, evC]
      (by decide) (by decide)⟩

/-- Claim C4: every output segment except the last closes at the next
segment's start, which is the next segment's first event's timestamp; the
last segment closes at its own last event's timestamp; and the spec's
three-event scenario yields exactly the two expected segments. -/
theorem c4_segment_boundaries :
    (∀ (resolve : Resolver) (mode : String) (evts : List RawEvent), evts ≠ [] →
      List.Chain' (fun a b : Segment => a.segmentEnd = some b.segmentStart)
        (buildSegments resolve mode evts) ∧
      (∀ s ∈ buildSegments resolve mode evts,
        s.events.head?.map (·.original_timestamp) = some s.segmentStart) ∧
      ∃ s, (buildSegments resolve mode evts).getLast? = some s ∧
        s.segmentEnd = s.events.getLast?.map (·.original_timestamp)) ∧
    buildSegments scenarioResolve "internal" [evA, evB, evC] = [segP1, segP2] := by
  constructor
  · intro resolve mode evts hne
    cases evts with
    | nil => exact absurd rfl hne
    | cons e rest =>
        unfold buildSegments
        refine ⟨segLoop_chain_ends resolve mode rest
            (pushEvent (newSegment mode resolve e) e) (by simp [pushEvent]),
          segLoop_start_first resolve mode rest
            (pushEvent (newSegment mode resolve e) e) ?_, ?_⟩
        · simp [pushEvent, newSegment]
        · obtain ⟨s, h1, -, h3⟩ :=
            segLoop_last resolve mode rest
              (pushEvent (newSegment mode resolve e) e) (by simp [pushEvent])
          exact ⟨s, h1, h3⟩
  · decide

/-- Witness for C4 on the three scenario events. -/
theorem c4_segment_boundaries_witness :
    ([evA, evB, evC] : List RawEvent) ≠ [] ∧
    (List.Chain' (fun a b : Segment => a.segmentEnd = some b.segmentStart)
        (buildSegments scenarioResolve "internal" [evA, evB, evC]) ∧
      (∀ s ∈ buildSegments scenarioResolve "internal" [evA, evB, evC],
        s.events.head?.map (·.original_timestamp) = some s.segmentStart) ∧
      ∃ s, (buildSegments scenarioResolve "internal" [evA, evB, evC]).getLast? = some s ∧
        s.segmentEnd = s.events.getLast?.map (·.original_timestamp)) :=
  ⟨by decide,
    c4_segment_boundaries.1 scenarioResolve "internal" [evA, evB, evC] (by decide)⟩

/-- Claim C7: an event whose resolver lookup is absent gets the fixed
sentinel key `UNASSIGNED` (a total function of the input, hence the same on
every run), and a run of consecutive absent-resolution events coalesces into
a single sentinel-keyed segment. -/
theorem c7_unassigned_sentinel :
    (∀ (resolve : Resolver) (e : RawEvent), eventCtx resolve e = none →
        eventKey resolve e = "UNASSIGNED") ∧
    (∀ (resolve : Resolver) (mode : String) (evts : List RawEvent), evts ≠ [] →
      (∀ e ∈ evts, eventCtx resolve e = none) →
      ∃ s, buildSegments resolve mode evts = [s] ∧
        s.projectId = "UNASSIGNED" ∧ s.events = evts) := by
  constructor
  · intro resolve e h
    simp [eventKey, h, jsOrS]
  · intro resolve mode evts hne habs
    cases evts with
    | nil => exact absurd rfl hne
    | cons e rest =>
        unfold buildSegments
        have hkey : eventKey resolve e = "UNASSIGNED" := by
          simp [eventKey, habs e (List.mem_cons_self e rest), jsOrS]
        have hpid : (pushEvent (newSegment mode resolve e) e).projectId = "UNASSIGNED" := by
          simp [pushEvent, newSegment, hkey]
        have hrest : ∀ e' ∈ rest,
            eventKey resolve e' = (pushEvent (newSegment mode resolve e) e).projectId := by
          intro e' he'
          rw [hpid]
          simp [eventKey, habs e' (List.mem_cons_of_mem _ he'), jsOrS]
        obtain ⟨s, h1, h2, h3⟩ :=
          segLoop_single_key resolve mode rest
            (pushEvent (newSegment mode resolve e) e) (by simp [pushEvent]) hrest
        refine ⟨s, h1, ?_, ?_⟩
        · rw [h2, hpid]
        · rw [h3]
          simp [pushEvent, newSegment]

/-- Witness for C7 on an always-absent resolver and two events. -/
theorem c7_unassigned_sentinel_witness :
    (eventCtx noneResolve evA = none ∧ eventKey noneResolve evA = "UNASSIGNED") ∧
    (([evA, evB] : List RawEvent) ≠ [] ∧
      (∀ e ∈ ([evA, evB] : List RawEvent), eventCtx noneResolve e = none) ∧
      ∃ s, buildSegments noneResolve "internal" [evA, evB] = [s] ∧
        s.projectId = "UNASSIGNED" ∧ s.events = [evA, evB]) :=
  ⟨⟨by decide, c7_unassigned_sentinel.1 noneResolve evA (by decide)⟩,
    ⟨by decide, by decide,
      c7_unassigned_sentinel.2 noneResolve "internal" [evA, evB]
        (by decide) (by decide)⟩⟩

/-! ## Helper lemmas about the aggregate writer -/

/-- The row built from a segment carries the segment's idempotency key. -/
theorem rowOfSegment_key (ws we : Nat) (m : String) (seg : Segment) :
    (rowOfSegment ws we m seg).idempotency_key = segKey m seg := rfl

/-- Merging keeps the stored row's key. -/
theorem mergeRow_key (old new : AggRow) :
    (mergeRow old new).idempotency_key = old.idempotency_key := rfl

/-- The conflict-update map leaves every row's key in place, so it does not
change which row a lookup finds. -/
theorem findRow_map_merge (store : List AggRow) (new : AggRow) (kk k : String) :
    findRow (store.map fun r =>
        if r.idempotency_key == kk then mergeRow r new else r) k =
      (findRow store k).map fun r =>
        if r.idempotency_key == kk then mergeRow r new else r := by
  unfold findRow
  rw [List.find?_map]
  have hp : ((fun r : AggRow => r.idempotency_key == k) ∘ fun r =>
      if r.idempotency_key == kk then mergeRow r new else r) =
      (fun r : AggRow => r.idempotency_key == k) := by
    funext r
    by_cases hr : r.idempotency_key == kk
    · simp [Function.comp, hr, mergeRow_key]
    · simp [Function.comp, hr]
  rw [hp]

/-- The effect of one upsert on a lookup by key: the segment's own key gains
its inserted or merged row; every other key is untouched. -/
theorem findRow_upsert (ws we : Nat) (m : String) (store : List AggRow)
    (seg : Segment) (k : String) :
    findRow (upsertSegment ws we m store seg) k =
      if k = segKey m seg then
        match findRow store k with
        | none => some (rowOfSegment ws we m seg)
        | some r => some (mergeRow r (rowOfSegment ws we m seg))
      else findRow store k := by
  unfold upsertSegment
  dsimp only
  rw [rowOfSegment_key]
  cases hf : findRow store (segKey m seg) with
  | none =>
      dsimp only
      by_cases hk : k = segKey m seg
      · subst hk
        rw [if_pos rfl, hf]
        unfold findRow at hf ⊢
        rw [List.find?_append, hf]
        simp [rowOfSegment_key]
      · rw [if_neg hk]
        have hne : segKey m seg ≠ k := fun h => hk h.symm
        unfold findRow
        rw [List.find?_append]
        rcases hsf : store.find? (fun r => r.idempotency_key == k) with _ | r
        · rw [hsf]
          simp [rowOfSegment_key, hne]
        · rw [hsf]
          rfl
  | some old =>
      dsimp only
      have hold : (old.idempotency_key == segKey m seg) = true := by
        have := List.find?_some hf
        simpa [findRow] using this
      have holdeq : old.idempotency_key = segKey m seg := by simpa using hold
      by_cases hk : k = segKey m seg
      · subst hk
        rw [if_pos rfl, hf,
          findRow_map_merge store (rowOfSegment ws we m seg) (segKey m seg)
            (segKey m seg), hf]
        simp [holdeq]
      · rw [if_neg hk,
          findRow_map_merge store (rowOfSegment ws we m seg) (segKey m seg) k]
        rcases hres : findRow store k with _ | r
        · rfl
        · have hrk : (r.idempotency_key == k) = true := by
            have := List.find?_some hres
            simpa [findRow] using this
          have hr2 : r.idempotency_key = k := by simpa using hrk
          have hne2 : ¬r.idempotency_key = segKey m seg := by
            rw [hr2]
            exact hk
          simp [hne2]

/-- One upsert adds the segment's key when absent and keeps the key list
unchanged when it conflicts. -/
theorem keys_upsert (ws we : Nat) (m : String) (store : List AggRow) (seg : Segment) :
    (upsertSegment ws we m store seg).map (·.idempotency_key) =
      match findRow store (segKey m seg) with
      | none => store.map (·.idempotency_key) ++ [segKey m seg]
      | some _ => store.map (·.idempotency_key) := by
  unfold upsertSegment
  dsimp only
  rw [rowOfSegment_key]
  cases hf : findRow store (segKey m seg) with
  | none => simp [rowOfSegment_key]
  | some old =>
      rw [List.map_map]
      apply List.map_congr_left
      intro r _
      by_cases hr : r.idempotency_key = segKey m seg
      · simp [Function.comp, rowOfSegment_key, hr, mergeRow_key]
      · simp [Function.comp, rowOfSegment_key, hr]

/-- Writing segments whose keys are all already present does not change the
stored key list (no duplicate aggregates are created). -/
theorem keys_writeSegments_present (ws we : Nat) (m : String) :
    ∀ (segs : List Segment) (store : List AggRow),
      (∀ s ∈ segs, (findRow store (segKey m s)).isSome) →
      (writeSegments ws we m store segs).map (·.idempotency_key) =
        store.map (·.idempotency_key) := by
  intro segs
  induction segs with
  | nil => intro store _; rfl
  | cons s rest ih =>
      intro store h
      show (writeSegments ws we m (upsertSegment ws we m store s) rest).map
          (·.idempotency_key) = _
      rw [ih (upsertSegment ws we m store s) ?_, keys_upsert]
      · rcases hsf : findRow store (segKey m s) with _ | r
        · have hx := h s (List.mem_cons_self s rest)
          rw [hsf] at hx
          simp at hx
        · rfl
      · intro s2 hs2
        rw [findRow_upsert]
        by_cases hk : segKey m s2 = segKey m s
        · rw [if_pos hk]
          rcases findRow store (segKey m s2) with _ | r <;> rfl
        · rw [if_neg hk]
          exact h s2 (List.mem_cons_of_mem _ hs2)

/-- Writing segments whose keys all differ from `k` leaves the lookup at `k`
unchanged. -/
theorem findRow_writeSegments_other (ws we : Nat) (m : String) :
    ∀ (segs : List Segment) (store : List AggRow) (k : String),
      (∀ s ∈ segs, segKey m s ≠ k) →
      findRow (writeSegments ws we m store segs) k = findRow store k := by
  intro segs
  induction segs with
  | nil => intro store k _; rfl
  | cons s rest ih =>
      intro store k h
      show findRow (writeSegments ws we m (upsertSegment ws we m store s) rest) k = _
      rw [ih _ k (fun s2 hs2 => h s2 (List.mem_cons_of_mem _ hs2))]
      rw [findRow_upsert, if_neg (fun he => h s (List.mem_cons_self s rest) he.symm)]

/-- With pairwise-distinct keys, writing the segment list installs, at each
segment's key, exactly the insert-or-merge of that one segment. -/
theorem findRow_writeSegments_hit (ws we : Nat) (m : String) :
    ∀ (segs : List Segment) (store : List AggRow) (s : Segment),
      s ∈ segs → ((segs.map (segKey m)).Pairwise (· ≠ ·)) →
      findRow (writeSegments ws we m store segs) (segKey m s) =
        match findRow store (segKey m s) with
        | none => some (rowOfSegment ws we m s)
        | some r => some (mergeRow r (rowOfSegment ws we m s)) := by
  intro segs
  induction segs with
  | nil => intro store s hs; exact absurd hs (List.not_mem_nil s)
  | cons s0 rest ih =>
      intro store s hs hpair
      rw [List.map_cons] at hpair
      have hpc := List.pairwise_cons.mp hpair
      show findRow (writeSegments ws we m (upsertSegment ws we m store s0) rest)
          (segKey m s) = _
      rcases List.mem_cons.mp hs with rfl | hs2
      · rw [findRow_writeSegments_other ws we m rest _ (segKey m s) ?_]
        · rw [findRow_upsert, if_pos rfl]
        · intro s2 hs2 heq
          exact hpc.1 (segKey m s2) (List.mem_map_of_mem _ hs2) heq.symm
      · rw [ih _ s hs2 hpc.2, findRow_upsert,
          if_neg (fun heq => hpc.1 (segKey m s) (List.mem_map_of_mem _ hs2) heq.symm)]

/-- Writing segments with fresh, pairwise-distinct keys simply appends the
insert rows in order. -/
theorem writeSegments_fresh (ws we : Nat) (m : String) :
    ∀ (segs : List Segment) (store : List AggRow),
      (∀ s ∈ segs, findRow store (segKey m s) = none) →
      ((segs.map (segKey m)).Pairwise (· ≠ ·)) →
      writeSegments ws we m store segs = store ++ segs.map (rowOfSegment ws we m) := by
  intro segs
  induction segs with
  | nil => intro store _ _; simp [writeSegments]
  | cons s rest ih =>
      intro store hfresh hpair
      rw [List.map_cons] at hpair
      have hpc := List.pairwise_cons.mp hpair
      show writeSegments ws we m (upsertSegment ws we m store s) rest = _
      have hup : upsertSegment ws we m store s = store ++ [rowOfSegment ws we m s] := by
        unfold upsertSegment
        dsimp only
        rw [rowOfSegment_key, hfresh s (List.mem_cons_self s rest)]
      rw [hup, ih (store ++ [rowOfSegment ws we m s]) ?_ hpc.2]
      · simp
      · intro s2 hs2
        have h1 : findRow store (segKey m s2) = none :=
          hfresh s2 (List.mem_cons_of_mem _ hs2)
        have hne : segKey m s ≠ segKey m s2 :=
          hpc.1 _ (List.mem_map_of_mem _ hs2)
        unfold findRow at h1 ⊢
        rw [List.find?_append, h1]
        simp [rowOfSegment_key, hne]

/-! ## Claims about the aggregate writer -/

/-- Counterexample to Claim C1 as stated: with one segment built from one
window+mode, applying the writer twice is not the same final state as
applying it once — the single row's `raw_count` doubles from 1 to 2 because
the conflict branch sums counts and concatenates reference lists. -/
theorem c1_counterexample :
    writeSegments 0 1800000 "internal"
        (writeSegments 0 1800000 "internal" []
          (buildSegments cexResolve "internal" cexEvents))
        (buildSegments cexResolve "internal" cexEvents) ≠
      writeSegments 0 1800000 "internal" []
        (buildSegments cexResolve "internal" cexEvents) ∧
    (writeSegments 0 1800000 "internal" []
        (buildSegments cexResolve "internal" cexEvents)).map (·.raw_count) = [1] ∧
    (writeSegments 0 1800000 "internal"
        (writeSegments 0 1800000 "internal" []
          (buildSegments cexResolve "internal" cexEvents))
        (buildSegments cexResolve "internal" cexEvents)).map (·.raw_count) = [2] := by
  refine ⟨?_, by decide, by decide⟩
  decide

/-- Claim C1, amended: with pairwise-distinct segment keys, a second
identical application creates no new aggregate row (one row per segment
identity, same key list) and leaves `last_ts` and `segment_end` unchanged,
but it concatenates the reference list with itself and doubles the counts
(references are appended, not unioned, so repeated identical references are
double-counted). -/
theorem c1_writer_double_apply (ws we : Nat) (m : String) (segs : List Segment)
    (hpair : (segs.map (segKey m)).Pairwise (· ≠ ·)) :
    (writeSegments ws we m [] segs).map (·.idempotency_key) = segs.map (segKey m) ∧
    (writeSegments ws we m (writeSegments ws we m [] segs) segs).map
        (·.idempotency_key) =
      (writeSegments ws we m [] segs).map (·.idempotency_key) ∧
    ∀ s ∈ segs,
      findRow (writeSegments ws we m [] segs) (segKey m s) =
        some (rowOfSegment ws we m s) ∧
      findRow (writeSegments ws we m (writeSegments ws we m [] segs) segs)
          (segKey m s) =
        some (mergeRow (rowOfSegment ws we m s) (rowOfSegment ws we m s)) ∧
      (mergeRow (rowOfSegment ws we m s) (rowOfSegment ws we m s)).last_ts =
        (rowOfSegment ws we m s).last_ts ∧
      (mergeRow (rowOfSegment ws we m s) (rowOfSegment ws we m s)).segment_end =
        (rowOfSegment ws we m s).segment_end ∧
      (mergeRow (rowOfSegment ws we m s) (rowOfSegment ws we m s)).raw_refs =
        (rowOfSegment ws we m s).raw_refs ++ (rowOfSegment ws we m s).raw_refs ∧
      (mergeRow (rowOfSegment ws we m s) (rowOfSegment ws we m s)).raw_count =
        2 * (rowOfSegment ws we m s).raw_count ∧
      (mergeRow (rowOfSegment ws we m s) (rowOfSegment ws we m s)).message_count =
        2 * (rowOfSegment ws we m s).message_count ∧
      (mergeRow (rowOfSegment ws we m s) (rowOfSegment ws we m s)).status =
        (rowOfSegment ws we m s).status := by
  have honce : writeSegments ws we m [] segs = [] ++ segs.map (rowOfSegment ws we m) :=
    writeSegments_fresh ws we m segs [] (fun _ _ => rfl) hpair
  have hhit : ∀ s ∈ segs,
      findRow (writeSegments ws we m [] segs) (segKey m s) =
        some (rowOfSegment ws we m s) := by
    intro s hs
    rw [findRow_writeSegments_hit ws we m segs [] s hs hpair]
    rfl
  refine ⟨?_, ?_, ?_⟩
  · rw [honce]
    simp [List.map_map, Function.comp, rowOfSegment_key]
  · apply keys_writeSegments_present
    intro s hs
    rw [hhit s hs]
    rfl
  · intro s hs
    refine ⟨hhit s hs, ?_, by simp [mergeRow], by simp [mergeRow], rfl,
      by simp [mergeRow, two_mul], by simp [mergeRow, two_mul], rfl⟩
    rw [findRow_writeSegments_hit ws we m segs _ s hs hpair, hhit s hs]

/-- Witness for the amended C1 on the one-segment list built from
`cexEvents`. -/
theorem c1_writer_double_apply_witness :
    (((buildSegments cexResolve "internal" cexEvents).map
        (segKey "internal")).Pairwise (· ≠ ·)) ∧
    (writeSegments 0 1800000 "internal" []
        (buildSegments cexResolve "internal" cexEvents)).map (·.idempotency_key) =
      (buildSegments cexResolve "internal" cexEvents).map (segKey "internal") ∧
    (writeSegments 0 1800000 "internal"
        (writeSegments 0 1800000 "internal" []
          (buildSegments cexResolve "internal" cexEvents))
        (buildSegments cexResolve "internal" cexEvents)).map (·.idempotency_key) =
      (writeSegments 0 1800000 "internal" []
        (buildSegments cexResolve "internal" cexEvents)).map (·.idempotency_key) :=
  ⟨by decide,
    (c1_writer_double_apply 0 1800000 "internal"
      (buildSegments cexResolve "internal" cexEvents) (by decide)).1,
    (c1_writer_double_apply 0 1800000 "internal"
      (buildSegments cexResolve "internal" cexEvents) (by decide)).2.1⟩

/-- Counterexample to Claim C2 as stated: two conflicting writes whose min
version markers are 5 (stored) and 3 (incoming) merge to a row whose min
marker is still 5, not `min 5 3 = 3` — the conflict branch never updates
`context_version_min`. -/
theorem c2_counterexample :
    (rowOfSegment 0 1800000 "internal" cexSegA).context_version_min = some 5 ∧
    (rowOfSegment 0 1800000 "internal" cexSegB).context_version_min = some 3 ∧
    segKey "internal" cexSegA = segKey "internal" cexSegB ∧
    (upsertSegment 0 1800000 "internal"
        [rowOfSegment 0 1800000 "internal" cexSegA] cexSegB).map
      (·.context_version_min) ≠ [some (min 5 3)] := by
  refine ⟨by decide, by decide, by decide, ?_⟩
  decide

/-- Claim C2, amended: on an idempotency-key conflict the merged row takes
the later (maximum) `last_ts` and `segment_end`, the greatest max version
marker, and grows counts monotonically — no field is overwritten with an
earlier or smaller value — but the min version marker is left at the stored
row's value rather than the minimum of the two. -/
theorem c2_conflict_merge (ws we : Nat) (m : String) (store : List AggRow)
    (seg : Segment) (old : AggRow)
    (hold : findRow store (segKey m seg) = some old) :
    findRow (upsertSegment ws we m store seg) (segKey m seg) =
      some (mergeRow old (rowOfSegment ws we m seg)) ∧
    (mergeRow old (rowOfSegment ws we m seg)).last_ts =
      max old.last_ts (rowOfSegment ws we m seg).last_ts ∧
    (mergeRow old (rowOfSegment ws we m seg)).segment_end =
      max old.segment_end (rowOfSegment ws we m seg).segment_end ∧
    (mergeRow old (rowOfSegment ws we m seg)).context_version_max =
      pgGreatest old.context_version_max
        (rowOfSegment ws we m seg).context_version_max ∧
    (mergeRow old (rowOfSegment ws we m seg)).context_version_min =
      old.context_version_min ∧
    old.last_ts ≤ (mergeRow old (rowOfSegment ws we m seg)).last_ts ∧
    old.segment_end ≤ (mergeRow old (rowOfSegment ws we m seg)).segment_end ∧
    old.raw_count ≤ (mergeRow old (rowOfSegment ws we m seg)).raw_count ∧
    old.message_count ≤ (mergeRow old (rowOfSegment ws we m seg)).message_count := by
  refine ⟨?_, rfl, rfl, rfl, rfl, le_max_left _ _, le_max_left _ _,
    Nat.le_add_right _ _, Nat.le_add_right _ _⟩
  rw [findRow_upsert, if_pos rfl, hold]

/-- Witness for the amended C2 on the concrete conflicting pair. -/
theorem c2_conflict_merge_witness :
    findRow [rowOfSegment 0 1800000 "internal" cexSegA]
        (segKey "internal" cexSegB) =
      some (rowOfSegment 0 1800000 "internal" cexSegA) ∧
    findRow (upsertSegment 0 1800000 "internal"
        [rowOfSegment 0 1800000 "internal" cexSegA] cexSegB)
        (segKey "internal" cexSegB) =
      some (mergeRow (rowOfSegment 0 1800000 "internal" cexSegA)
        (rowOfSegment 0 1800000 "internal" cexSegB)) :=
  ⟨by decide,
    (c2_conflict_merge 0 1800000 "internal"
      [rowOfSegment 0 1800000 "internal" cexSegA] cexSegB
      (rowOfSegment 0 1800000 "internal" cexSegA) (by decide)).1⟩

/-- Witness for C5 at 10:15 local time (36900000 ms, an aligned tick). -/
theorem c5_mode_alternation_witness :
    36900000 % 900000 = 0 ∧
    (quarterIndex 36900000 < 4 ∧
      (tickMode 36900000 = "internal" ↔
        (quarterIndex 36900000 = 0 ∨ quarterIndex 36900000 = 2)) ∧
      (tickMode 36900000 = "external" ↔
        (quarterIndex 36900000 = 1 ∨ quarterIndex 36900000 = 3)) ∧
      tickMode (36900000 + 900000) ≠ tickMode 36900000 ∧
      tickMode (36900000 + 1800000) = tickMode 36900000 ∧
      tickMode (36900000 + 2700000) = tickMode (36900000 + 900000)) :=
  ⟨by decide, c5_mode_alternation 36900000 (by decide)⟩

/-! ## Frame and status of one tick -/

/-- Every row the write loop leaves in the store either carries status
`active` or inherits key and status from a row of the original store. -/
theorem writeSegments_status (ws we : Nat) (m : String) (base : List AggRow) :
    ∀ (segs : List Segment) (store : List AggRow),
      (∀ r ∈ store, r.status = "active" ∨
        ∃ o ∈ base, o.idempotency_key = r.idempotency_key ∧ o.status = r.status) →
      ∀ r ∈ writeSegments ws we m store segs,
        r.status = "active" ∨
        ∃ o ∈ base, o.idempotency_key = r.idempotency_key ∧ o.status = r.status := by
  intro segs
  induction segs with
  | nil => intro store h r hr; exact h r hr
  | cons seg rest ih =>
      intro store h r hr
      refine ih (upsertSegment ws we m store seg) ?_ r hr
      intro r2 hr2
      unfold upsertSegment at hr2
      dsimp only at hr2
      rw [rowOfSegment_key] at hr2
      cases hfind : findRow store (segKey m seg) with
      | none =>
          rw [hfind] at hr2
          dsimp only at hr2
          rcases List.mem_append.mp hr2 with hr3 | hr3
          · exact h r2 hr3
          · rw [List.mem_singleton] at hr3
            subst hr3
            exact Or.inl rfl
      | some old =>
          rw [hfind] at hr2
          dsimp only at hr2
          obtain ⟨r0, hr0, heq⟩ := List.mem_map.mp hr2
          by_cases hb : r0.idempotency_key = segKey m seg
          · rw [if_pos (by simpa using hb)] at heq
            subst heq
            rcases h r0 hr0 with h1 | ⟨o, ho, hok, hos⟩
            · exact Or.inl h1
            · exact Or.inr ⟨o, ho, hok, hos⟩
          · rw [if_neg (by simpa using hb)] at heq
            subst heq
            exact h r0 hr0

/-- Claim C6: a tick never modifies the raw event source or the
`dev_ai_sessions` store, and every aggregate row it leaves behind either was
freshly written with status `active` or keeps the status the stored row with
its key already had (the conflict branch never sets any other status). -/
theorem c6_frame_and_status (resolve : Resolver) (st : DbState) (now : Nat) :
    (processTick resolve st now).raw = st.raw ∧
    (processTick resolve st now).dev_ai_sessions = st.dev_ai_sessions ∧
    ∀ r ∈ (processTick resolve st now).dev_session_logs,
      r.status = "active" ∨
      ∃ o ∈ st.dev_session_logs,
        o.idempotency_key = r.idempotency_key ∧ o.status = r.status := by
  unfold processTick
  dsimp only
  split
  · exact ⟨rfl, rfl, fun r hr => Or.inr ⟨r, hr, rfl, rfl⟩⟩
  · refine ⟨rfl, rfl, ?_⟩
    exact writeSegments_status _ _ _ st.dev_session_logs _ st.dev_session_logs
      (fun r hr => Or.inr ⟨r, hr, rfl, rfl⟩)

/-! ## Normalization is one function, applied at both sites -/

/-- The segmenter's result depends on the resolver only through lookups at
normalized tags: two resolvers that agree on every normalized tag produce
identical segments. -/
theorem buildSegments_resolver_congr (r₁ r₂ : Resolver)
    (h : ∀ (tag : Option String) (ts : Nat),
      r₁ (normalizePcTag tag) ts = r₂ (normalizePcTag tag) ts) :
    ∀ (mode : String) (evts : List RawEvent),
      buildSegments r₁ mode evts = buildSegments r₂ mode evts := by
  have hctx : ∀ e : RawEvent, eventCtx r₁ e = eventCtx r₂ e := fun e =>
    h e.pc_tag e.original_timestamp
  have hkey : ∀ e, eventKey r₁ e = eventKey r₂ e := by
    intro e
    unfold eventKey
    rw [hctx]
  have hslug : ∀ e, eventSlug r₁ e = eventSlug r₂ e := by
    intro e
    unfold eventSlug
    rw [hctx]
  intro mode
  have hnew : ∀ e, newSegment mode r₁ e = newSegment mode r₂ e := by
    intro e
    unfold newSegment
    rw [hctx, hkey, hslug]
  have hloop : ∀ (evts : List RawEvent) (cur : Segment),
      segLoop r₁ mode evts cur = segLoop r₂ mode evts cur := by
    intro evts
    induction evts with
    | nil => intro cur; rfl
    | cons e rest ih =>
        intro cur
        simp only [segLoop, hkey, hnew, ih]
  intro evts
  cases evts with
  | nil => rfl
  | cons e rest =>
      simp only [buildSegments, hnew, hloop]

/-- Claim C8: the tag normalization returns the fixed fallback for a missing
or empty tag and otherwise lower-cases and replaces every character outside
`[a-z0-9-]` with `'-'` (same length, all output characters in the class,
pointwise lower-case-then-replace); the writer stores `pc_tag_norm` as
exactly `normalizePcTag` of the stored tag; and segmentation consults the
resolver only at normalized tags. -/
theorem c8_normalize_pc_tag :
    (normalizePcTag none = "studio-terminals" ∧
      normalizePcTag (some "") = "studio-terminals") ∧
    (∀ s : String, s ≠ "" →
      (normalizePcTag (some s)).data.length = s.data.length ∧
      (∀ c ∈ (normalizePcTag (some s)).data, isTagChar c = true) ∧
      (∀ i : Nat, (normalizePcTag (some s)).data[i]? =
        (s.data[i]?).map fun c =>
          if isTagChar c.toLower then c.toLower else '-')) ∧
    (∀ (ws we : Nat) (m : String) (seg : Segment),
      (rowOfSegment ws we m seg).pc_tag_norm =
        normalizePcTag (rowOfSegment ws we m seg).pc_tag) ∧
    (∀ r₁ r₂ : Resolver,
      (∀ (tag : Option String) (ts : Nat),
        r₁ (normalizePcTag tag) ts = r₂ (normalizePcTag tag) ts) →
      ∀ (mode : String) (evts : List RawEvent),
        buildSegments r₁ mode evts = buildSegments r₂ mode evts) := by
  refine ⟨⟨rfl, rfl⟩, ?_, fun _ _ _ _ => rfl, buildSegments_resolver_congr⟩
  intro s hs
  have hdata : (normalizePcTag (some s)).data =
      (s.data.map Char.toLower).map (fun c => if isTagChar c then c else '-') := by
    simp only [normalizePcTag]
    rw [if_neg hs]
  refine ⟨?_, ?_, ?_⟩
  · rw [hdata]
    simp
  · intro c hc
    rw [hdata] at hc
    simp only [List.mem_map] at hc
    obtain ⟨a, -, rfl⟩ := hc
    by_cases hca : isTagChar a
    · simp [hca]
    · simp [hca]
      decide
  · intro i
    rw [hdata]
    simp only [List.getElem?_map, Option.map_map]
    rfl

/-- Witness for C8 on the concrete tag `My PC!` and two equal resolvers. -/
theorem c8_normalize_pc_tag_witness :
    ("My PC!" ≠ "" ∧
      ((normalizePcTag (some "My PC!")).data.length = "My PC!".data.length ∧
        (∀ c ∈ (normalizePcTag (some "My PC!")).data, isTagChar c = true) ∧
        (∀ i : Nat, (normalizePcTag (some "My PC!")).data[i]? =
          ("My PC!".data[i]?).map fun c =>
            if isTagChar c.toLower then c.toLower else '-'))) ∧
    buildSegments noneResolve "internal" [evA] =
      buildSegments noneResolve "internal" [evA] :=
  ⟨⟨by decide, c8_normalize_pc_tag.2.1 "My PC!" (by decide)⟩,
    c8_normalize_pc_tag.2.2.2 noneResolve noneResolve (fun _ _ => rfl)
      "internal" [evA]⟩

/-! ## Version markers on first insert -/

/-- A left fold of `min` is a lower bound of its start and of the list. -/
theorem foldl_min_le (xs : List Int) : ∀ a : Int,
    xs.foldl min a ≤ a ∧ ∀ x ∈ xs, xs.foldl min a ≤ x := by
  induction xs with
  | nil =>
      intro a
      exact ⟨le_refl a, by simp⟩
  | cons y ys ih =>
      intro a
      rw [List.foldl_cons]
      refine ⟨le_trans (ih (min a y)).1 (min_le_left a y), ?_⟩
      intro x hx
      rcases List.mem_cons.mp hx with rfl | hx2
      · exact le_trans (ih (min a x)).1 (min_le_right a x)
      · exact (ih (min a y)).2 x hx2

/-- A left fold of `min` is the start or one of the list elements. -/
theorem foldl_min_mem (xs : List Int) : ∀ a : Int,
    xs.foldl min a = a ∨ xs.foldl min a ∈ xs := by
  induction xs with
  | nil => intro a; exact Or.inl rfl
  | cons y ys ih =>
      intro a
      rw [List.foldl_cons]
      rcases ih (min a y) with h | h
      · rw [h]
        rcases le_total a y with hy | hy
        · exact Or.inl (min_eq_left hy)
        · rw [min_eq_right hy]
          exact Or.inr (List.mem_cons_self y ys)
      · exact Or.inr (List.mem_cons_of_mem y h)

/-- A left fold of `max` is an upper bound of its start and of the list. -/
theorem foldl_max_le (xs : List Int) : ∀ a : Int,
    a ≤ xs.foldl max a ∧ ∀ x ∈ xs, x ≤ xs.foldl max a := by
  induction xs with
  | nil =>
      intro a
      exact ⟨le_refl a, by simp⟩
  | cons y ys ih =>
      intro a
      rw [List.foldl_cons]
      refine ⟨le_trans (le_max_left a y) (ih (max a y)).1, ?_⟩
      intro x hx
      rcases List.mem_cons.mp hx with rfl | hx2
      · exact le_trans (le_max_right a x) (ih (max a x)).1
      · exact (ih (max a y)).2 x hx2

/-- A left fold of `max` is the start or one of the list elements. -/
theorem foldl_max_mem (xs : List Int) : ∀ a : Int,
    xs.foldl max a = a ∨ xs.foldl max a ∈ xs := by
  induction xs with
  | nil => intro a; exact Or.inl rfl
  | cons y ys ih =>
      intro a
      rw [List.foldl_cons]
      rcases ih (max a y) with h | h
      · rw [h]
        rcases le_total a y with hy | hy
        · rw [max_eq_right hy]
          exact Or.inr (List.mem_cons_self y ys)
        · exact Or.inl (max_eq_left hy)
      · exact Or.inr (List.mem_cons_of_mem y h)

/-- Along the loop, a segment's collected `contextVersions` list is exactly
the defined `context_version` values of its events, in order. -/
theorem segLoop_versions (resolve : Resolver) (mode : String) :
    ∀ (evts : List RawEvent) (cur : Segment),
      cur.contextVersions = cur.events.filterMap (·.context_version) →
      ∀ s ∈ segLoop resolve mode evts cur,
        s.contextVersions = s.events.filterMap (·.context_version) := by
  intro evts
  induction evts with
  | nil =>
      intro cur hc s hs
      simp only [segLoop] at hs
      by_cases hemp : cur.events.isEmpty
      · rw [if_pos hemp] at hs
        simp at hs
      · rw [if_neg hemp] at hs
        simp only [List.mem_singleton] at hs
        subst hs
        simpa using hc
  | cons e rest ih =>
      intro cur hc s hs
      simp only [segLoop] at hs
      by_cases hk : cur.projectId = eventKey resolve e
      · rw [if_pos hk] at hs
        refine ih (pushEvent cur e) ?_ s hs
        cases hcv : e.context_version with
        | none => simp [pushEvent, hcv, List.filterMap_append, hc]
        | some v => simp [pushEvent, hcv, List.filterMap_append, hc]
      · rw [if_neg hk] at hs
        rcases List.mem_cons.mp hs with rfl | hs2
        · simpa using hc
        · refine ih (pushEvent (newSegment mode resolve e) e) ?_ s hs2
          cases hcv : e.context_version with
          | none => simp [pushEvent, newSegment, hcv]
          | some v => simp [pushEvent, newSegment, hcv]

/-- Every segment the segmenter outputs collects exactly its events' defined
version values. -/
theorem buildSegments_versions (resolve : Resolver) (mode : String)
    (evts : List RawEvent) :
    ∀ s ∈ buildSegments resolve mode evts,
      s.contextVersions = s.events.filterMap (·.context_version) := by
  cases evts with
  | nil =>
      intro s hs
      simp [buildSegments] at hs
  | cons e rest =>
      intro s hs
      refine segLoop_versions resolve mode rest
        (pushEvent (newSegment mode resolve e) e) ?_ s hs
      cases hcv : e.context_version with
      | none => simp [pushEvent, newSegment, hcv]
      | some v => simp [pushEvent, newSegment, hcv]

/-- Claim C10: on first insert the min and max context-version markers are
null exactly when no event of the segment carries a `context_version`, and
otherwise they are a defined version value of the segment's events that
bounds all of them below resp. above. -/
theorem c10_version_markers (resolve : Resolver) (mode : String)
    (evts : List RawEvent) (ws we : Nat) (seg : Segment)
    (hseg : seg ∈ buildSegments resolve mode evts) :
    ((rowOfSegment ws we mode seg).context_version_min = none ↔
      seg.events.filterMap (·.context_version) = []) ∧
    ((rowOfSegment ws we mode seg).context_version_max = none ↔
      seg.events.filterMap (·.context_version) = []) ∧
    (∀ v, (rowOfSegment ws we mode seg).context_version_min = some v →
      v ∈ seg.events.filterMap (·.context_version) ∧
      ∀ x ∈ seg.events.filterMap (·.context_version), v ≤ x) ∧
    (∀ v, (rowOfSegment ws we mode seg).context_version_max = some v →
      v ∈ seg.events.filterMap (·.context_version) ∧
      ∀ x ∈ seg.events.filterMap (·.context_version), x ≤ v) := by
  have hcv := buildSegments_versions resolve mode evts seg hseg
  have hmin : (rowOfSegment ws we mode seg).context_version_min =
      minList (seg.events.filterMap (·.context_version)) := by
    show minList seg.contextVersions = _
    rw [hcv]
  have hmax : (rowOfSegment ws we mode seg).context_version_max =
      maxList (seg.events.filterMap (·.context_version)) := by
    show maxList seg.contextVersions = _
    rw [hcv]
  rw [hmin, hmax]
  rcases hl : seg.events.filterMap (·.context_version) with _ | ⟨x, xs⟩
  · rw [hl]
    simp [minList, maxList]
  · rw [hl]
    refine ⟨by simp [minList], by simp [maxList], ?_, ?_⟩
    · intro v hv
      simp only [minList, Option.some_inj] at hv
      subst hv
      constructor
      · rcases foldl_min_mem xs x with h | h
        · rw [h]
          exact List.mem_cons_self x xs
        · exact List.mem_cons_of_mem x h
      · intro y hy
        rcases List.mem_cons.mp hy with rfl | hy2
        · exact (foldl_min_le xs _).1
        · exact (foldl_min_le xs x).2 y hy2
    · intro v hv
      simp only [maxList, Option.some_inj] at hv
      subst hv
      constructor
      · rcases foldl_max_mem xs x with h | h
        · rw [h]
          exact List.mem_cons_self x xs
        · exact List.mem_cons_of_mem x h
      · intro y hy
        rcases List.mem_cons.mp hy with rfl | hy2
        · exact (foldl_max_le xs _).1
        · exact (foldl_max_le xs x).2 y hy2

/-- Witness for C10 on the one-event segment built from `cexEvents`. -/
theorem c10_version_markers_witness :
    cexSegBuilt ∈ buildSegments cexResolve "internal" cexEvents ∧
    (((rowOfSegment 0 1800000 "internal" cexSegBuilt).context_version_min = none ↔
        cexSegBuilt.events.filterMap (·.context_version) = []) ∧
      ((rowOfSegment 0 1800000 "internal" cexSegBuilt).context_version_max = none ↔
        cexSegBuilt.events.filterMap (·.context_version) = []) ∧
      (∀ v, (rowOfSegment 0 1800000 "internal" cexSegBuilt).context_version_min = some v →
        v ∈ cexSegBuilt.events.filterMap (·.context_version) ∧
        ∀ x ∈ cexSegBuilt.events.filterMap (·.context_version), v ≤ x) ∧
      (∀ v, (rowOfSegment 0 1800000 "internal" cexSegBuilt).context_version_max = some v →
        v ∈ cexSegBuilt.events.filterMap (·.context_version) ∧
        ∀ x ∈ cexSegBuilt.events.filterMap (·.context_version), x ≤ v)) :=
  ⟨by decide,
    c10_version_markers cexResolve "internal" cexEvents 0 1800000 cexSegBuilt
      (by decide)⟩

end Chad
